import Mathlib

/-!
Verification of the barycentric-coordinate utilities in `coordinates.py`
(`project_pointline`, `bary2cart`, `lattice`, `polycorners`, `baryedges`).

The geometric routines are embedded over the real numbers: a 2-entry numpy
array becomes a pair of reals, `np.dot` becomes an explicit dot product,
`np.linalg.norm(v, 2)` becomes the square root of the dot square.  Real
division by zero is `0` in Lean; where the Python code divides by a zero
denominator (numpy would produce NaN and raise no exception), the embedding
likewise returns a total, junk value — the relevant fact in both semantics
is that no error is raised.

`lattice` only performs field arithmetic on small rationals (the spec itself
notes that its deduplication is intended for "the small rational inputs these
formulas produce"), so it is embedded over `ℚ`, exactly mirroring the
source's list construction and dedup-via-set.
-/

namespace Barycentric

noncomputable section RealDefs

/-- Two-dimensional Cartesian point, as a pair of reals. -/
abbrev Vec2 : Type := ℝ × ℝ

/-- Dot product of two 2-entry vectors (`np.dot` on length-2 arrays). -/
def dot (u v : Vec2) : ℝ := u.1 * v.1 + u.2 * v.2

/-- Euclidean 2-norm of a 2-entry vector (`np.linalg.norm(v, 2)`). -/
def norm2 (v : Vec2) : ℝ := Real.sqrt (dot v v)

/-- The function `project_pointline(p, a, b)` from `coordinates.py`:
`a + (np.dot(p - a, b - a) / np.dot(b - a, b - a)) * (b - a)`. -/
def project_pointline (p a b : Vec2) : Vec2 :=
  a + (dot (p - a) (b - a) / dot (b - a) (b - a)) • (b - a)

/-- The angle used for corner `i` in `polycorners`:
`(float(i) / ncorners) * (np.pi * 2) + (np.pi / 2)`. -/
def cornerAngle (d i : ℕ) : ℝ :=
  ((i : ℝ) / (d : ℝ)) * (Real.pi * 2) + Real.pi / 2

/-- Corner `i` computed in the loop body of `polycorners`:
`center + (cos angle * 0.5, sin angle * 0.5)` with `center = (0.5, 0.5)`. -/
def cornerPt (d i : ℕ) : Vec2 :=
  (1 / 2 + Real.cos (cornerAngle d i) * (1 / 2),
   1 / 2 + Real.sin (cornerAngle d i) * (1 / 2))

/-- The function `polycorners(ncorners)`: the list of corner points for `i in range(ncorners)`. -/
def polycorners (ncorners : ℕ) : List Vec2 :=
  (List.range ncorners).map (cornerPt ncorners)

/-- The function `bary2cart(bary, corners)` (single-coordinate branch):
`np.sum(bary / np.sum(bary) * corners.T, axis=1)`, i.e. the sum over `j` of
`(bary[j] / sum(bary)) * corners[j]`.  When `corners is None` the source uses
`polycorners(bary.shape[-1])`. -/
def bary2cart (bary : List ℝ) (corners : Option (List Vec2)) : Vec2 :=
  let cs := corners.getD (polycorners bary.length)
  ∑ j in Finset.range bary.length, (bary.getD j 0 / bary.sum) • cs.getD j (0, 0)

/-- Row `i` of `np.identity(d)`: the unit coordinate `e_i` (1 at position `i`,
0 elsewhere), over any coefficient type. -/
def unitvec (α : Type) [Zero α] [One α] (d i : ℕ) : List α :=
  (List.range d).map fun j => if j = i then 1 else 0

/-- The function `baryedges(coords)` as a function from (row, column) to the matrix entry.
For each row `i1 in range(d)` the source sets, with `i2 = (i1 - 1) mod d`
(`np.roll(np.arange(d), 1)`), `proj` the projection of the converted point
onto segment `(corners[i1], corners[i2])`, and `distances[k]` the norm of
`corners[ik] - proj`:
`e[i1, i1] = sum(distances) - distances[0]` and
`e[i1, i2] = sum(distances) - distances[1]`; all other entries stay `0`. -/
def baryedges (coords : List ℝ) : ℕ → ℕ → ℝ := fun i1 c =>
  let d := coords.length
  let corners := polycorners d
  let cart := bary2cart coords (some corners)
  let i2 := (i1 + d - 1) % d
  let proj := project_pointline cart (corners.getD i1 (0, 0)) (corners.getD i2 (0, 0))
  let dist1 := norm2 (corners.getD i1 (0, 0) - proj)
  let dist2 := norm2 (corners.getD i2 (0, 0) - proj)
  if c = i1 then dist1 + dist2 - dist1
  else if c = i2 then dist1 + dist2 - dist2
  else 0

end RealDefs

/-- Pointwise sum of two coordinate vectors (numpy `+` on equal-length arrays). -/
def addv (u v : List ℚ) : List ℚ := List.zipWith (fun a b => a + b) u v

/-- Pointwise division of a coordinate vector by a scalar (numpy `/`). -/
def divv (u : List ℚ) (c : ℚ) : List ℚ := u.map fun a => a / c

/-- The center coordinate from `lattice`: `np.array([1. / ncorners] * ncorners)`. -/
def qcenter (d : ℕ) : List ℚ := List.replicate d (1 / (d : ℚ))

/-- The index pairs `(i, j)` with `i < j < n`, in the order of the nested
`for i in range(n): for j in range(i + 1, n)` loops. -/
def pairsLT (n : ℕ) : List (ℕ × ℕ) :=
  (List.range n).flatMap fun i => ((List.range n).drop (i + 1)).map fun j => (i, j)

/-- The list `coords` built by `lattice(ncorners, sides)` before deduplication:
corners (`np.identity`), center, `(coords[i] + coords[j] + center) / 3` for
`i < j`, `(coords[i] + center) / 2` for each `i`, and, when `sides` is set,
`(coords[i] + coords[j]) / 2` for `i < j` (for indices `i, j < ncorners`,
`coords[i]` is still the unit corner vector when read). -/
def latticeRaw (ncorners : ℕ) (sides : Bool) : List (List ℚ) :=
  ((List.range ncorners).map fun i => unitvec ℚ ncorners i) ++
  [qcenter ncorners] ++
  ((pairsLT ncorners).map fun ij =>
    divv (addv (addv (unitvec ℚ ncorners ij.1) (unitvec ℚ ncorners ij.2)) (qcenter ncorners)) 3) ++
  ((List.range ncorners).map fun i =>
    divv (addv (unitvec ℚ ncorners i) (qcenter ncorners)) 2) ++
  (if sides then
    (pairsLT ncorners).map fun ij =>
      divv (addv (unitvec ℚ ncorners ij.1) (unitvec ℚ ncorners ij.2)) 2
   else [])

/-- The function `lattice(ncorners, sides)`: the unique coordinates of `latticeRaw`
(`set(tuple(c) for c in coords)`; the Python set is unordered, so the result
is meaningful as a duplicate-free collection of values). -/
def lattice (ncorners : ℕ) (sides : Bool) : List (List ℚ) :=
  (latticeRaw ncorners sides).dedup

/-! ### List helper lemmas -/

lemma getD_range_map {α : Type} (f : ℕ → α) (dflt : α) {n i : ℕ} (h : i < n) :
    ((List.range n).map f).getD i dflt = f i := by
  simp [List.getD_eq_getElem?_getD, List.getElem?_map, List.getElem?_range, h]

lemma sum_range_map {M : Type} [AddCommMonoid M] (f : ℕ → M) (n : ℕ) :
    ((List.range n).map f).sum = ∑ j in Finset.range n, f j := by
  induction n with
  | zero => simp
  | succ n ih => rw [List.range_succ, List.map_append, List.sum_append,
      Finset.sum_range_succ, ih]; simp

lemma list_sum_eq_sum_getD {M : Type} [AddCommMonoid M] (l : List M) :
    l.sum = ∑ j in Finset.range l.length, l.getD j 0 := by
  induction l with
  | nil => simp
  | cons a l ih =>
      rw [List.sum_cons, List.length_cons, Finset.sum_range_succ' (fun j => (a :: l).getD j 0)]
      simp only [List.getD_cons_succ, List.getD_cons_zero]
      rw [← ih, add_comm]

/-! ### Unit coordinate vectors -/

lemma unitvec_length (α : Type) [Zero α] [One α] (d i : ℕ) :
    (unitvec α d i).length = d := by simp [unitvec]

lemma unitvec_getD (α : Type) [Zero α] [One α] (d i j : ℕ) (h : j < d) :
    (unitvec α d i).getD j 0 = if j = i then 1 else 0 := by
  rw [unitvec, getD_range_map _ _ h]

lemma unitvec_sum (α : Type) [AddCommMonoid α] [One α] (d i : ℕ) (hi : i < d) :
    (unitvec α d i).sum = 1 := by
  rw [unitvec, sum_range_map, Finset.sum_ite_eq' (Finset.range d) i (fun _ => 1),
    if_pos (Finset.mem_range.mpr hi)]

/-! ### bary2cart on unit coordinate vectors -/

lemma sum_unitvec_smul (d i : ℕ) (hi : i < d) (g : ℕ → Vec2) :
    (∑ j in Finset.range d, ((unitvec ℝ d i).getD j 0 / (unitvec ℝ d i).sum) • g j) = g i := by
  rw [unitvec_sum ℝ d i hi]
  rw [show (∑ j in Finset.range d, ((unitvec ℝ d i).getD j 0 / 1) • g j)
      = ∑ j in Finset.range d, (if j = i then g j else 0) from
    Finset.sum_congr rfl fun j hj => by
      rw [unitvec_getD ℝ d i j (Finset.mem_range.mp hj)]
      split <;> simp]
  rw [Finset.sum_ite_eq' (Finset.range d) i g, if_pos (Finset.mem_range.mpr hi)]

lemma bary2cart_unitvec_some (d i : ℕ) (hi : i < d) (cs : List Vec2) :
    bary2cart (unitvec ℝ d i) (some cs) = cs.getD i (0, 0) := by
  rw [bary2cart, Option.getD_some, unitvec_length]
  exact sum_unitvec_smul d i hi _

lemma bary2cart_unitvec_none (d i : ℕ) (hi : i < d) :
    bary2cart (unitvec ℝ d i) none = cornerPt d i := by
  rw [bary2cart, Option.getD_none, unitvec_length]
  rw [sum_unitvec_smul d i hi]
  rw [polycorners, getD_range_map _ _ hi]

/-! ### polycorners basics -/

lemma polycorners_length (d : ℕ) : (polycorners d).length = d := by simp [polycorners]

lemma polycorners_getD (d i : ℕ) (h : i < d) :
    (polycorners d).getD i (0, 0) = cornerPt d i := by
  rw [polycorners, getD_range_map _ _ h]

lemma cornerAngle_zero (d : ℕ) : cornerAngle d 0 = Real.pi / 2 := by
  simp [cornerAngle]

lemma cornerPt_zero (d : ℕ) : cornerPt d 0 = (1 / 2, 1) := by
  rw [cornerPt, cornerAngle_zero, Real.cos_pi_div_two, Real.sin_pi_div_two]
  norm_num

lemma cornerPt_dist_sq (d i : ℕ) :
    ((cornerPt d i).1 - 1 / 2) ^ 2 + ((cornerPt d i).2 - 1 / 2) ^ 2 = (1 / 2) ^ 2 := by
  rw [cornerPt]
  have h := Real.cos_sq_add_sin_sq (cornerAngle d i)
  ring_nf
  nlinarith [h]

lemma cornerPt_dist (d i : ℕ) :
    Real.sqrt (((cornerPt d i).1 - 1 / 2) ^ 2 + ((cornerPt d i).2 - 1 / 2) ^ 2) = 1 / 2 := by
  rw [cornerPt_dist_sq, Real.sqrt_sq (by norm_num : (0 : ℝ) ≤ 1 / 2)]

/-! ### Distinctness of polygon corners -/

lemma cornerAngle_sub (d i j : ℕ) :
    cornerAngle d i - cornerAngle d j = (((i : ℝ) - (j : ℝ)) / (d : ℝ)) * (Real.pi * 2) := by
  rw [cornerAngle, cornerAngle]
  ring

lemma cornerPt_ne_of_lt {d i j : ℕ} (hj : j < i) (hi : i < d) :
    cornerPt d i ≠ cornerPt d j := by
  intro heq
  rw [cornerPt, cornerPt, Prod.mk.injEq] at heq
  obtain ⟨hxe, hye⟩ := heq
  have hc : Real.cos (cornerAngle d i) = Real.cos (cornerAngle d j) := by linarith
  have hs : Real.sin (cornerAngle d i) = Real.sin (cornerAngle d j) := by linarith
  have hcos1 : Real.cos (cornerAngle d i - cornerAngle d j) = 1 := by
    rw [Real.cos_sub, hc, hs]
    linear_combination Real.cos_sq_add_sin_sq (cornerAngle d j)
  rw [cornerAngle_sub] at hcos1
  have hj1 : (j : ℝ) + 1 ≤ (i : ℝ) := by exact_mod_cast hj
  have hid : (i : ℝ) < (d : ℝ) := by exact_mod_cast hi
  have hj0 : (0 : ℝ) ≤ (j : ℝ) := Nat.cast_nonneg j
  have hd : (0 : ℝ) < (d : ℝ) := by linarith
  have hnum : (0 : ℝ) < (i : ℝ) - (j : ℝ) := by linarith
  have hfrac : ((i : ℝ) - (j : ℝ)) / (d : ℝ) < 1 := (div_lt_one hd).mpr (by linarith)
  have hfrac0 : 0 < ((i : ℝ) - (j : ℝ)) / (d : ℝ) := div_pos hnum hd
  have hpi := Real.pi_pos
  have hx0 : 0 < ((i : ℝ) - (j : ℝ)) / (d : ℝ) * (Real.pi * 2) := by positivity
  have hmul := mul_lt_mul_of_pos_right hfrac (show (0 : ℝ) < Real.pi * 2 by positivity)
  have hx2 : ((i : ℝ) - (j : ℝ)) / (d : ℝ) * (Real.pi * 2) < 2 * Real.pi := by nlinarith
  have hzero := (Real.cos_eq_one_iff_of_lt_of_lt (by linarith) hx2).mp hcos1
  linarith

lemma cornerPt_ne {d i j : ℕ} (hi : i < d) (hj : j < d) (hne : i ≠ j) :
    cornerPt d i ≠ cornerPt d j := by
  rcases Nat.lt_or_ge i j with h | h
  · exact (cornerPt_ne_of_lt h hj).symm
  · exact cornerPt_ne_of_lt (lt_of_le_of_ne h hne.symm) hi

/-! ### Dot products, norms and projections -/

lemma dot_self_pos (v : Vec2) (hv : v ≠ 0) : 0 < dot v v := by
  have h : v.1 ≠ 0 ∨ v.2 ≠ 0 := by
    by_contra h
    push_neg at h
    exact hv (Prod.ext_iff.mpr ⟨h.1, h.2⟩)
  rw [dot]
  rcases h with h | h
  · nlinarith [mul_self_pos.mpr h, mul_self_nonneg v.2]
  · nlinarith [mul_self_pos.mpr h, mul_self_nonneg v.1]

lemma dot_self_ne_zero (v : Vec2) (hv : v ≠ 0) : dot v v ≠ 0 :=
  ne_of_gt (dot_self_pos v hv)

lemma norm2_zero_vec : norm2 0 = 0 := by
  rw [norm2]
  have : dot 0 0 = 0 := by simp [dot]
  rw [this, Real.sqrt_zero]

lemma norm2_pos (v : Vec2) (hv : v ≠ 0) : 0 < norm2 v :=
  Real.sqrt_pos.mpr (dot_self_pos v hv)

lemma dot_zero_left (v : Vec2) : dot 0 v = 0 := by simp [dot]

lemma project_self (a b : Vec2) : project_pointline a a b = a := by
  rw [project_pointline, sub_self, dot_zero_left, zero_div, zero_smul, add_zero]

lemma project_endpoint (a b : Vec2) (h : b ≠ a) : project_pointline b a b = b := by
  rw [project_pointline, div_self (dot_self_ne_zero (b - a) (sub_ne_zero.mpr h)), one_smul]
  abel

/-! ### The rolled edge index of baryedges -/

lemma roll_zero (d : ℕ) (hd : 1 ≤ d) : (0 + d - 1) % d = d - 1 := by
  rw [show 0 + d - 1 = d - 1 from by omega, Nat.mod_eq_of_lt (by omega)]

lemma roll_one (d : ℕ) (hd : 1 ≤ d) : (1 + d - 1) % d = 0 := by
  rw [show 1 + d - 1 = d from by omega, Nat.mod_self]

lemma roll_lt (d i1 : ℕ) (hd : 0 < d) : (i1 + d - 1) % d < d := Nat.mod_lt _ hd

lemma roll_ne (d i1 : ℕ) (hd : 2 ≤ d) (h : i1 < d) : (i1 + d - 1) % d ≠ i1 := by
  rcases i1 with _ | k
  · rw [roll_zero d (by omega)]
    omega
  · rw [show k + 1 + d - 1 = k + d from by omega, Nat.add_mod_right,
      Nat.mod_eq_of_lt (by omega : k < d)]
    omega

/-! ### baryedges on the unit corner coordinate -/

lemma baryedges_e0_row0_diag (d : ℕ) (hd : 2 ≤ d) :
    baryedges (unitvec ℝ d 0) 0 0 = norm2 (cornerPt d (d - 1) - cornerPt d 0) := by
  have hd0 : 0 < d := by omega
  simp only [baryedges, unitvec_length]
  rw [roll_zero d (by omega)]
  rw [bary2cart_unitvec_some d 0 hd0, polycorners_getD d 0 hd0,
    polycorners_getD d (d - 1) (by omega)]
  rw [project_self, sub_self, norm2_zero_vec]
  simp

lemma baryedges_e0_row0_off (d : ℕ) (hd : 2 ≤ d) (c : ℕ) (hc : c ≠ 0) :
    baryedges (unitvec ℝ d 0) 0 c = 0 := by
  have hd0 : 0 < d := by omega
  simp only [baryedges, unitvec_length]
  rw [roll_zero d (by omega)]
  rw [bary2cart_unitvec_some d 0 hd0, polycorners_getD d 0 hd0,
    polycorners_getD d (d - 1) (by omega)]
  rw [project_self, sub_self, norm2_zero_vec, if_neg hc]
  split
  · ring
  · rfl

lemma baryedges_e0_row1_zero (d : ℕ) (hd : 2 ≤ d) :
    baryedges (unitvec ℝ d 0) 1 0 = norm2 (cornerPt d 1 - cornerPt d 0) := by
  have hd0 : 0 < d := by omega
  simp only [baryedges, unitvec_length]
  rw [roll_one d (by omega)]
  rw [bary2cart_unitvec_some d 0 hd0, polycorners_getD d 0 hd0,
    polycorners_getD d 1 (by omega)]
  rw [project_endpoint _ _ (cornerPt_ne hd0 (by omega) (by omega : (0 : ℕ) ≠ 1))]
  rw [sub_self, norm2_zero_vec, if_neg (by omega : (0 : ℕ) ≠ 1), if_pos rfl]
  ring

lemma baryedges_e0_row1_off (d : ℕ) (hd : 2 ≤ d) (c : ℕ) (hc : c ≠ 0) :
    baryedges (unitvec ℝ d 0) 1 c = 0 := by
  have hd0 : 0 < d := by omega
  simp only [baryedges, unitvec_length]
  rw [roll_one d (by omega)]
  rw [bary2cart_unitvec_some d 0 hd0, polycorners_getD d 0 hd0,
    polycorners_getD d 1 (by omega)]
  rw [project_endpoint _ _ (cornerPt_ne hd0 (by omega) (by omega : (0 : ℕ) ≠ 1))]
  rw [sub_self, norm2_zero_vec]
  by_cases h1 : c = 1
  · subst h1
    rw [if_pos rfl]
    ring
  · rw [if_neg h1, if_neg hc]

/-! ### bary2cart as a center of mass -/

lemma getD_mem {α : Type} (l : List α) (j : ℕ) (dflt : α) (h : j < l.length) :
    l.getD j dflt ∈ l := by
  rw [List.getD_eq_getElem?_getD, List.getElem?_eq_getElem h, Option.getD_some]
  exact List.getElem_mem h

lemma bary2cart_eq_centerMass (w : List ℝ) :
    bary2cart w none =
      Finset.centerMass (Finset.range w.length) (fun j => w.getD j 0)
        (fun j => (polycorners w.length).getD j (0, 0)) := by
  rw [bary2cart, Option.getD_none, Finset.centerMass, ← list_sum_eq_sum_getD, Finset.smul_sum]
  refine Finset.sum_congr rfl fun j hj => ?_
  rw [div_eq_inv_mul, mul_smul]

lemma bary2cart_mem_convexHull (w : List ℝ) (hnn : ∀ x ∈ w, 0 ≤ x) (hpos : 0 < w.sum) :
    bary2cart w none ∈ convexHull ℝ {p : Vec2 | p ∈ polycorners w.length} := by
  rw [bary2cart_eq_centerMass]
  refine Finset.centerMass_mem_convexHull _ ?_ ?_ ?_
  · intro j hj
    exact hnn _ (getD_mem w j 0 (Finset.mem_range.mp hj))
  · rw [← list_sum_eq_sum_getD]
    exact hpos
  · intro j hj
    exact getD_mem (polycorners w.length) j (0, 0)
      ((polycorners_length w.length).symm ▸ Finset.mem_range.mp hj)

/-! ### Claim theorems: C1, C2, C7 -/

/-- Claim C1: for every d ≥ 2, `polycorners d` returns exactly d two-dimensional
Cartesian points; each point is at Euclidean distance 1/2 from the center
(1/2, 1/2); corner 0 is (1/2, 1); and corner i is placed at angle
(i/d)·2π + π/2 on the circle of radius 1/2 around the center, so the corners
proceed counter-clockwise starting from the top. -/
theorem polycorners_spec_C1 (d : ℕ) (hd : 2 ≤ d) :
    (polycorners d).length = d ∧
    (polycorners d).getD 0 (0, 0) = (1 / 2, 1) ∧
    ∀ i, i < d →
      Real.sqrt ((((polycorners d).getD i (0, 0)).1 - 1 / 2) ^ 2 +
          (((polycorners d).getD i (0, 0)).2 - 1 / 2) ^ 2) = 1 / 2 ∧
      (polycorners d).getD i (0, 0) =
        (1 / 2 + Real.cos (((i : ℝ) / (d : ℝ)) * (2 * Real.pi) + Real.pi / 2) * (1 / 2),
         1 / 2 + Real.sin (((i : ℝ) / (d : ℝ)) * (2 * Real.pi) + Real.pi / 2) * (1 / 2)) := by
  refine ⟨polycorners_length d, ?_, fun i hi => ⟨?_, ?_⟩⟩
  · rw [polycorners_getD d 0 (by omega), cornerPt_zero]
  · rw [polycorners_getD d i hi]
    exact cornerPt_dist d i
  · have harg : cornerAngle d i = ((i : ℝ) / (d : ℝ)) * (2 * Real.pi) + Real.pi / 2 := by
      rw [cornerAngle]
      ring
    rw [polycorners_getD d i hi, cornerPt, harg]

/-- Witness for C1 at d = 2. -/
theorem polycorners_spec_C1_witness :
    (polycorners 2).length = 2 ∧ (polycorners 2).getD 0 (0, 0) = (1 / 2, 1) :=
  ⟨(polycorners_spec_C1 2 (by norm_num)).1, (polycorners_spec_C1 2 (by norm_num)).2.1⟩

/-- Claim C2: for every d ≥ 2 and index i < d, converting the unit barycentric
vector e_i with `bary2cart` and the default corners yields exactly the
Cartesian position of corner i of `polycorners d`. -/
theorem bary2cart_corner_C2 (d i : ℕ) (hd : 2 ≤ d) (hi : i < d) :
    bary2cart (unitvec ℝ d i) none = (polycorners d).getD i (0, 0) := by
  rw [bary2cart_unitvec_none d i hi, polycorners_getD d i hi]

/-- Witness for C2 at d = 3, i = 0. -/
theorem bary2cart_corner_C2_witness :
    bary2cart (unitvec ℝ 3 0) none = (polycorners 3).getD 0 (0, 0) :=
  bary2cart_corner_C2 3 0 (by norm_num) (by norm_num)

/-- Claim C7: for every barycentric coordinate of length at least 2 with
non-negative weights and strictly positive weight sum, the Cartesian point
computed by `bary2cart` with default corners lies in the convex hull of the
corner points of `polycorners`. -/
theorem bary2cart_convexHull_C7 (w : List ℝ) (hd : 2 ≤ w.length)
    (hnn : ∀ x ∈ w, 0 ≤ x) (hpos : 0 < w.sum) :
    bary2cart w none ∈ convexHull ℝ {p : Vec2 | p ∈ polycorners w.length} :=
  bary2cart_mem_convexHull w hnn hpos

/-- Witness for C7 at w = [1, 0, 0]. -/
theorem bary2cart_convexHull_C7_witness :
    bary2cart [1, 0, 0] none ∈ convexHull ℝ {p : Vec2 | p ∈ polycorners ([(1 : ℝ), 0, 0]).length} :=
  bary2cart_convexHull_C7 [1, 0, 0] (by norm_num)
    (by
      intro x hx
      simp only [List.mem_cons, List.not_mem_nil, or_false] at hx
      rcases hx with rfl | rfl | rfl <;> norm_num)
    (by norm_num)

/-- Claim C8: for every d ≥ 2, `baryedges` applied to the unit corner coordinate
e_0 gives, in the two rows whose edge touches corner 0 (row 0, edge (0, d-1),
and row 1, edge (1, 0)), a row whose entire nonzero weight sits at position 0:
every entry at a position other than 0 is zero (in particular the entry at the
other edge endpoint), and the entry at position 0 is strictly positive. -/
theorem baryedges_corner_C8 (d : ℕ) (hd : 2 ≤ d) :
    (∀ c, c ≠ 0 → baryedges (unitvec ℝ d 0) 0 c = 0) ∧
    (∀ c, c ≠ 0 → baryedges (unitvec ℝ d 0) 1 c = 0) ∧
    0 < baryedges (unitvec ℝ d 0) 0 0 ∧
    0 < baryedges (unitvec ℝ d 0) 1 0 := by
  refine ⟨fun c hc => baryedges_e0_row0_off d hd c hc,
    fun c hc => baryedges_e0_row1_off d hd c hc, ?_, ?_⟩
  · rw [baryedges_e0_row0_diag d hd]
    exact norm2_pos _ (sub_ne_zero.mpr (cornerPt_ne (by omega) (by omega) (by omega)))
  · rw [baryedges_e0_row1_zero d hd]
    exact norm2_pos _ (sub_ne_zero.mpr (cornerPt_ne (by omega) (by omega) (by omega)))

/-- Witness for C8 at d = 3 (entries (0,2), (1,1), (0,0), (1,0)). -/
theorem baryedges_corner_C8_witness :
    baryedges (unitvec ℝ 3 0) 0 2 = 0 ∧ baryedges (unitvec ℝ 3 0) 1 1 = 0 ∧
    0 < baryedges (unitvec ℝ 3 0) 0 0 ∧ 0 < baryedges (unitvec ℝ 3 0) 1 0 :=
  ⟨(baryedges_corner_C8 3 (by norm_num)).1 2 (by norm_num),
   (baryedges_corner_C8 3 (by norm_num)).2.1 1 (by norm_num),
   (baryedges_corner_C8 3 (by norm_num)).2.2.1,
   (baryedges_corner_C8 3 (by norm_num)).2.2.2⟩

/-- Claim C10: for every d ≥ 2 and every row index i1 < d, the two corners that
`baryedges` hands to `project_pointline` — corner i1 and corner
(i1 - 1) mod d, written (i1 + d - 1) % d on naturals — are distinct points,
so the denominator `dot (b - a) (b - a)` of the projection formula is
nonzero and the division inside `baryedges` is well-defined. -/
theorem baryedges_denominator_C10 (d i1 : ℕ) (hd : 2 ≤ d) (hi : i1 < d) :
    (polycorners d).getD i1 (0, 0) ≠ (polycorners d).getD ((i1 + d - 1) % d) (0, 0) ∧
    dot ((polycorners d).getD ((i1 + d - 1) % d) (0, 0) - (polycorners d).getD i1 (0, 0))
      ((polycorners d).getD ((i1 + d - 1) % d) (0, 0) - (polycorners d).getD i1 (0, 0)) ≠ 0 := by
  have h2 := roll_lt d i1 (by omega)
  have hne := roll_ne d i1 hd hi
  rw [polycorners_getD d i1 hi, polycorners_getD d _ h2]
  have hcne : cornerPt d i1 ≠ cornerPt d ((i1 + d - 1) % d) := cornerPt_ne hi h2 (Ne.symm hne)
  exact ⟨hcne, dot_self_ne_zero _ (sub_ne_zero.mpr (Ne.symm hcne))⟩

/-- Witness for C10 at d = 3, i1 = 0. -/
theorem baryedges_denominator_C10_witness :
    (polycorners 3).getD 0 (0, 0) ≠ (polycorners 3).getD ((0 + 3 - 1) % 3) (0, 0) :=
  (baryedges_denominator_C10 3 0 (by norm_num) (by norm_num)).1

/-! ### Lattice arithmetic over ℚ -/

lemma addv_length (u v : List ℚ) (h : u.length = v.length) : (addv u v).length = u.length := by
  simp [addv, h]

lemma qcenter_length (d : ℕ) : (qcenter d).length = d := by simp [qcenter]

lemma addv_sum (u : List ℚ) : ∀ v : List ℚ, u.length = v.length →
    (addv u v).sum = u.sum + v.sum := by
  induction u with
  | nil =>
      intro v h
      cases v with
      | nil => simp [addv]
      | cons b bs => simp at h
  | cons a as ih =>
      intro v h
      cases v with
      | nil => simp at h
      | cons b bs =>
          rw [addv, List.zipWith_cons_cons, List.sum_cons, List.sum_cons, List.sum_cons]
          rw [show List.zipWith (fun a b => a + b) as bs = addv as bs from rfl]
          rw [ih bs (by simpa using h)]
          ring

lemma divv_sum (u : List ℚ) (c : ℚ) : (divv u c).sum = u.sum / c := by
  induction u with
  | nil => simp [divv]
  | cons a as ih =>
      rw [divv, List.map_cons, List.sum_cons, List.sum_cons, add_div]
      rw [show List.map (fun a => a / c) as = divv as c from rfl, ih]

lemma addv_nonneg (u : List ℚ) : ∀ v : List ℚ, (∀ x ∈ u, 0 ≤ x) → (∀ x ∈ v, 0 ≤ x) →
    ∀ x ∈ addv u v, 0 ≤ x := by
  induction u with
  | nil =>
      intro v _ _ x hx
      simp [addv] at hx
  | cons a as ih =>
      intro v hu hv x hx
      cases v with
      | nil => simp [addv] at hx
      | cons b bs =>
          rw [addv, List.zipWith_cons_cons] at hx
          rcases List.mem_cons.mp hx with rfl | hx
          · exact add_nonneg (hu a (by simp)) (hv b (by simp))
          · exact ih bs (fun y hy => hu y (by simp [hy])) (fun y hy => hv y (by simp [hy])) x hx

lemma divv_nonneg (u : List ℚ) (c : ℚ) (hu : ∀ x ∈ u, 0 ≤ x) (hc : 0 ≤ c) :
    ∀ x ∈ divv u c, 0 ≤ x := by
  intro x hx
  obtain ⟨a, ha, rfl⟩ := List.mem_map.mp hx
  exact div_nonneg (hu a ha) hc

lemma unitvec_nonneg (d i : ℕ) : ∀ x ∈ unitvec ℚ d i, 0 ≤ x := by
  intro x hx
  obtain ⟨j, hj, rfl⟩ := List.mem_map.mp hx
  split <;> norm_num

lemma qcenter_nonneg (d : ℕ) : ∀ x ∈ qcenter d, 0 ≤ x := by
  intro x hx
  rw [qcenter] at hx
  rw [List.eq_of_mem_replicate hx]
  positivity

lemma qcenter_sum (d : ℕ) (hd : 1 ≤ d) : (qcenter d).sum = 1 := by
  rw [qcenter, List.sum_replicate, nsmul_eq_mul, mul_one_div, div_self]
  exact Nat.cast_ne_zero.mpr (by omega)

lemma pairsLT_lt {n : ℕ} {p : ℕ × ℕ} (hp : p ∈ pairsLT n) : p.1 < n ∧ p.2 < n := by
  rw [pairsLT] at hp
  simp only [List.mem_flatMap] at hp
  obtain ⟨i, hi, hmem⟩ := hp
  obtain ⟨j, hj, rfl⟩ := List.mem_map.mp hmem
  exact ⟨List.mem_range.mp hi, List.mem_range.mp (List.mem_of_mem_drop hj)⟩

lemma mem_latticeRaw_cases (d : ℕ) (s : Bool) (c : List ℚ) (hc : c ∈ latticeRaw d s) :
    (∃ i, i < d ∧ c = unitvec ℚ d i) ∨ c = qcenter d ∨
    (∃ p, p ∈ pairsLT d ∧
      c = divv (addv (addv (unitvec ℚ d p.1) (unitvec ℚ d p.2)) (qcenter d)) 3) ∨
    (∃ i, i < d ∧ c = divv (addv (unitvec ℚ d i) (qcenter d)) 2) ∨
    (∃ p, p ∈ pairsLT d ∧ c = divv (addv (unitvec ℚ d p.1) (unitvec ℚ d p.2)) 2) := by
  rw [latticeRaw] at hc
  simp only [List.mem_append, List.mem_map, List.mem_range, List.mem_singleton] at hc
  rcases hc with ((((h | h) | h) | h) | h)
  · obtain ⟨i, hi, rfl⟩ := h
    exact Or.inl ⟨i, hi, rfl⟩
  · exact Or.inr (Or.inl h)
  · obtain ⟨p, hp, rfl⟩ := h
    exact Or.inr (Or.inr (Or.inl ⟨p, hp, rfl⟩))
  · obtain ⟨i, hi, rfl⟩ := h
    exact Or.inr (Or.inr (Or.inr (Or.inl ⟨i, hi, rfl⟩)))
  · cases s with
    | false => simp at h
    | true =>
        rw [if_pos rfl] at h
        obtain ⟨p, hp, rfl⟩ := List.mem_map.mp h
        exact Or.inr (Or.inr (Or.inr (Or.inr ⟨p, hp, rfl⟩)))

/-! ### Claim theorems: C9, C3 -/

/-- Claim C9: for every corner count d ≥ 2 and either value of the sides flag,
every coordinate returned by `lattice` has non-negative weights summing
exactly to 1. -/
theorem lattice_normalized_C9 (d : ℕ) (hd : 2 ≤ d) (s : Bool) (c : List ℚ)
    (hc : c ∈ lattice d s) : (∀ x ∈ c, 0 ≤ x) ∧ c.sum = 1 := by
  have hd1 : 1 ≤ d := by omega
  have hc' := List.mem_dedup.mp (by rwa [lattice] at hc)
  have lu : ∀ i j : ℕ, (unitvec ℚ d i).length = (unitvec ℚ d j).length := by
    intro i j
    rw [unitvec_length, unitvec_length]
  have luc : ∀ i : ℕ, (unitvec ℚ d i).length = (qcenter d).length := by
    intro i
    rw [unitvec_length, qcenter_length]
  rcases mem_latticeRaw_cases d s c hc' with
    ⟨i, hi, rfl⟩ | rfl | ⟨p, hp, rfl⟩ | ⟨i, hi, rfl⟩ | ⟨p, hp, rfl⟩
  · exact ⟨unitvec_nonneg d i, unitvec_sum ℚ d i hi⟩
  · exact ⟨qcenter_nonneg d, qcenter_sum d hd1⟩
  · obtain ⟨h1, h2⟩ := pairsLT_lt hp
    refine ⟨divv_nonneg _ _ (addv_nonneg _ _ (addv_nonneg _ _ (unitvec_nonneg d p.1)
      (unitvec_nonneg d p.2)) (qcenter_nonneg d)) (by norm_num), ?_⟩
    rw [divv_sum, addv_sum _ _ (by rw [addv_length _ _ (lu p.1 p.2)]; exact luc p.1),
      addv_sum _ _ (lu p.1 p.2), unitvec_sum ℚ d p.1 h1, unitvec_sum ℚ d p.2 h2,
      qcenter_sum d hd1]
    norm_num
  · refine ⟨divv_nonneg _ _ (addv_nonneg _ _ (unitvec_nonneg d i)
      (qcenter_nonneg d)) (by norm_num), ?_⟩
    rw [divv_sum, addv_sum _ _ (luc i), unitvec_sum ℚ d i hi, qcenter_sum d hd1]
    norm_num
  · obtain ⟨h1, h2⟩ := pairsLT_lt hp
    refine ⟨divv_nonneg _ _ (addv_nonneg _ _ (unitvec_nonneg d p.1)
      (unitvec_nonneg d p.2)) (by norm_num), ?_⟩
    rw [divv_sum, addv_sum _ _ (lu p.1 p.2), unitvec_sum ℚ d p.1 h1,
      unitvec_sum ℚ d p.2 h2]
    norm_num

/-- Witness for C9 at d = 3, sides = false, on the corner coordinate e_0. -/
theorem lattice_normalized_C9_witness : (unitvec ℚ 3 0).sum = 1 :=
  (lattice_normalized_C9 3 (by norm_num) false (unitvec ℚ 3 0) (by
    rw [lattice, List.mem_dedup, latticeRaw]
    exact List.mem_append_left _ (List.mem_append_left _ (List.mem_append_left _
      (List.mem_append_left _
        (List.mem_map.mpr ⟨0, List.mem_range.mpr (by norm_num), rfl⟩)))))).2

lemma latticeRaw3_nodup : (latticeRaw 3 false).Nodup := by
  norm_num [latticeRaw, pairsLT, unitvec, qcenter, addv, divv, List.range_succ,
    List.replicate_succ, List.zipWith_cons_cons, List.nodup_cons, List.mem_cons]

lemma lattice3_eq : lattice 3 false = latticeRaw 3 false := by
  rw [lattice, List.dedup_eq_self.mpr latticeRaw3_nodup]

lemma latticeRaw3_val : latticeRaw 3 false =
    [[1, 0, 0], [0, 1, 0], [0, 0, 1], [1 / 3, 1 / 3, 1 / 3],
     [4 / 9, 4 / 9, 1 / 9], [4 / 9, 1 / 9, 4 / 9], [1 / 9, 4 / 9, 4 / 9],
     [2 / 3, 1 / 6, 1 / 6], [1 / 6, 2 / 3, 1 / 6], [1 / 6, 1 / 6, 2 / 3]] := by
  norm_num [latticeRaw, pairsLT, unitvec, qcenter, addv, divv, List.range_succ,
    List.replicate_succ, List.zipWith_cons_cons]

/-- Counterexample to C3 as stated: `lattice 3 false` does not have 7 unique
coordinates (it has 10: the claim's enumeration omits the three
corner-centroid averages produced by step 4 of the construction). -/
theorem lattice3_C3_counterexample : (lattice 3 false).length ≠ 7 := by
  rw [lattice3_eq, latticeRaw3_val]
  norm_num

/-- Claim C3 (amended): `lattice 3 false` returns exactly 10 unique barycentric
coordinates: the 3 corners (corner 0 = (1,0,0)), the centroid (1/3,1/3,1/3),
the 3 corner-pair-centroid averages, and the 3 corner-centroid averages. -/
theorem lattice3_C3 :
    lattice 3 false =
      [[1, 0, 0], [0, 1, 0], [0, 0, 1], [1 / 3, 1 / 3, 1 / 3],
       [4 / 9, 4 / 9, 1 / 9], [4 / 9, 1 / 9, 4 / 9], [1 / 9, 4 / 9, 4 / 9],
       [2 / 3, 1 / 6, 1 / 6], [1 / 6, 2 / 3, 1 / 6], [1 / 6, 1 / 6, 2 / 3]] ∧
    (lattice 3 false).length = 10 ∧ unitvec ℚ 3 0 = [1, 0, 0] := by
  rw [lattice3_eq, latticeRaw3_val]
  refine ⟨rfl, rfl, ?_⟩
  norm_num [unitvec, List.range_succ]

/-! ### Claim theorems: C4, C5, C6 (absence of error handling) -/

/-- Counterexample to C4 as stated: on the zero-sum input (0,0,0), `bary2cart`
does not fail with InvalidArgument — it is a total function and returns a
value (the origin under the real-semantics convention that x / 0 = 0; the
numpy source silently produces NaN, likewise raising no error). -/
theorem bary2cart_zero_C4_counterexample : bary2cart [0, 0, 0] none = (0, 0) := by
  rw [bary2cart]
  norm_num

/-- Claim C4 (amended): `bary2cart` performs no zero-sum check: for every
barycentric input whose weights sum to 0, each normalized weight w_j / Σw is
a division by zero, and the function returns the origin (under the convention
x / 0 = 0; numpy silently yields NaN) instead of failing with
InvalidArgument. -/
theorem bary2cart_zero_C4 (w : List ℝ) (hsum : w.sum = 0) :
    bary2cart w none = (0, 0) := by
  rw [bary2cart]
  simp [hsum]

/-- Witness for the amended C4 at the input (0,0,0). -/
theorem bary2cart_zero_C4_witness : bary2cart [0, 0, 0] none = (0, 0) :=
  bary2cart_zero_C4 [0, 0, 0] (by norm_num)

/-- Counterexample to C5 as stated: `polycorners 1` does not fail with
InvalidArgument — it returns a (one-point) sequence. -/
theorem polycorners_small_C5_counterexample : (polycorners 1).length = 1 := by
  rw [polycorners_length]

/-- Claim C5 (amended): `polycorners` performs no validation of the corner
count: for d < 2 it returns a degenerate sequence instead of failing — the
empty sequence for d = 0 and the single point (1/2, 1) for d = 1. -/
theorem polycorners_small_C5 : polycorners 0 = [] ∧ polycorners 1 = [(1 / 2, 1)] := by
  constructor
  · rw [polycorners, List.range_zero, List.map_nil]
  · rw [polycorners, show List.range 1 = [0] from by norm_num [List.range_succ],
      List.map_cons, List.map_nil, cornerPt_zero]

/-- Counterexample to C6 as stated: with coinciding endpoints
a = b = (0,0), `project_pointline` does not fail with DegenerateSegment — it
returns a value (the endpoint a under the convention x / 0 = 0; the numpy
source silently yields NaN, likewise raising no error). -/
theorem project_degenerate_C6_counterexample :
    project_pointline (1 / 2, 1 / 2) (0, 0) (0, 0) = (0, 0) := by
  rw [project_pointline, sub_self, smul_zero, add_zero]

/-- Claim C6 (amended): `project_pointline` performs no degeneracy check: for
every point p and endpoint a, `project_pointline p a a = a` (under the
convention x / 0 = 0; numpy silently yields NaN) instead of raising
DegenerateSegment.  For distinct endpoints the documented example holds:
projecting (1/2, 1/2) onto the segment from (0,0) to (1,0) yields (1/2, 0). -/
theorem project_degenerate_C6 :
    (∀ p a : Vec2, project_pointline p a a = a) ∧
    project_pointline (1 / 2, 1 / 2) (0, 0) (1, 0) = (1 / 2, 0) := by
  constructor
  · intro p a
    rw [project_pointline, sub_self, smul_zero, add_zero]
  · rw [project_pointline]
    rw [show ((1, 0) : Vec2) - (0, 0) = (1, 0) from by norm_num [Prod.ext_iff],
      show ((1 / 2, 1 / 2) : Vec2) - (0, 0) = (1 / 2, 1 / 2) from by norm_num [Prod.ext_iff]]
    rw [dot, dot]
    norm_num [Prod.ext_iff]

end Barycentric
